import Mathlib

/-!
Shallow embedding of `issue_leaderboard.py` (tsp-space-scripts).

Python dicts with string keys are modelled as insertion-ordered association
lists `List (String × v)` whose keys are kept unique by the insertion
operation; `List.lookup` models subscript access `d[k]`, and `containsKey`
models the membership test `k in d`.  The XML dump consumed by
`get_puppet_issue_counts` is modelled as the list of NATION records the
`iterparse` loop visits, each carrying the text of its NAME child (absent
when the NAME element is missing) and its ISSUES_ANSWERED counter value.
-/

namespace IssueLeaderboard

/-- Keys of a modelled Python dict, in insertion order. -/
def keys {v : Type} (d : List (String × v)) : List String := d.map Prod.fst

/-- Membership test `k in d` on a modelled Python dict. -/
def containsKey {v : Type} (d : List (String × v)) (k : String) : Bool :=
  d.any (fun q => q.1 == k)

/-- Embedding of `canonical_nation_name` (line 24): Python `str.lower()`
lowercases every character of the name; `Char.toLower` agrees with it on the
ASCII names this program handles. -/
def canonical_nation_name (nation_name : String) : String :=
  ⟨nation_name.data.map Char.toLower⟩

/-- One NATION record of the dump as seen by the scan loop (lines 137-142):
the text of its NAME child — `none` models a missing NAME element, for which
`elem.find('NAME')` returns `None` in Python — and the integer value of its
ISSUES_ANSWERED counter. -/
structure NationRecord where
  name : Option String
  issues_answered : Int
deriving DecidableEq

/-- The failure mode of the scan loop: calling `.text` on the `None` returned
by `elem.find('NAME')` raises an `AttributeError` in Python, which propagates
out of `get_puppet_issue_counts` and aborts the scan. -/
inductive ScanError where
| attributeError
deriving DecidableEq

/-- Python dict assignment `d[k] = v`: overwrite in place when the key is
present, append a new entry otherwise. -/
def dictInsert (d : List (String × Int)) (k : String) (v : Int) : List (String × Int) :=
  if containsKey d k then d.map (fun q => if q.1 = k then (q.1, v) else q)
  else d ++ [(k, v)]

/-- Body of the `iterparse` loop of `get_puppet_issue_counts` (lines
137-142), processing the remaining NATION records while threading the
accumulated `puppet_issue_counts` dict.  A record whose NAME element is
missing raises `AttributeError` and aborts the whole scan. -/
def scanLoop (puppets : List (String × String)) :
    List NationRecord → List (String × Int) → Except ScanError (List (String × Int))
  | [], acc => .ok acc
  | r :: rs, acc =>
    match r.name with
    | none => .error .attributeError
    | some raw =>
      let nation_name := canonical_nation_name raw
      if containsKey puppets nation_name then
        scanLoop puppets rs (dictInsert acc nation_name r.issues_answered)
      else
        scanLoop puppets rs acc

/-- Embedding of `get_puppet_issue_counts` (lines 123-143): scan every NATION
record of the dump, keeping the ISSUES_ANSWERED counter of each record whose
canonicalized NAME is a key of the `puppets` watch-list. -/
def get_puppet_issue_counts (dump : List NationRecord)
    (puppets : List (String × String)) : Except ScanError (List (String × Int)) :=
  scanLoop puppets dump []

/-- Python `leaderboard[owner_name] += v` with `owner_name` already a key
(lines 173 and 176). -/
def addToOwner (board : List (String × Int)) (o : String) (v : Int) :
    List (String × Int) :=
  board.map (fun q => if q.1 = o then (q.1, q.2 + v) else q)

/-- Lines 165-166 of `get_leaderboard`: `if owner_name not in leaderboard:
leaderboard[owner_name] = 0`. -/
def lbInit (board : List (String × Int)) (owner_name : String) :
    List (String × Int) :=
  if containsKey board owner_name then board else board ++ [(owner_name, 0)]

/-- Lines 165-176 of `get_leaderboard`: process one `(puppet_name,
owner_name)` pair of the watch-list against the current `leaderboard` dict.
A puppet absent from the end-date counts contributes nothing (`continue`);
one absent only from the start-date counts contributes its full end-date
count; otherwise the difference of the two counts is added. -/
def lbStep (startC endC : List (String × Int)) (board : List (String × Int))
    (puppet_name owner_name : String) : List (String × Int) :=
  match endC.lookup puppet_name with
  | none => lbInit board owner_name
  | some end_date_count =>
    match startC.lookup puppet_name with
    | none => addToOwner (lbInit board owner_name) owner_name end_date_count
    | some start_date_count =>
      addToOwner (lbInit board owner_name) owner_name (end_date_count - start_date_count)

/-- The `for puppet_name, owner_name in puppets.items()` loop of
`get_leaderboard` (lines 164-176), threading the `leaderboard` dict. -/
def lbLoop (startC endC : List (String × Int)) :
    List (String × String) → List (String × Int) → List (String × Int)
  | [], board => board
  | (puppet_name, owner_name) :: rest, board =>
    lbLoop startC endC rest (lbStep startC endC board puppet_name owner_name)

/-- Embedding of `get_leaderboard` (lines 151-178): run the accumulation loop
from the empty dict, then `dict(sorted(leaderboard.items(), key=item[1],
reverse=True))` — a stable sort on the value, descending, repackaged as an
insertion-ordered dict. -/
def get_leaderboard (puppets : List (String × String))
    (start_date_issue_counts end_date_issue_counts : List (String × Int)) :
    List (String × Int) :=
  (lbLoop start_date_issue_counts end_date_issue_counts puppets []).mergeSort
    (fun a b => decide (b.2 ≤ a.2))

/-- Per-puppet contribution read off the branches at lines 168-176: `0` when
the puppet is absent from the end-date counts, the full end-date count when
it is absent only from the start-date counts, the difference otherwise. -/
def contribution (startC endC : List (String × Int)) (p : String) : Int :=
  match endC.lookup p with
  | none => 0
  | some e =>
    match startC.lookup p with
    | none => e
    | some s => e - s

/-- Sum of the contributions of the puppets of owner `o` listed in the
watch-list `W`. -/
def ownerTotal (W : List (String × String)) (startC endC : List (String × Int))
    (o : String) : Int :=
  ((W.filter (fun q => q.2 = o)).map (fun q => contribution startC endC q.1)).sum

/-- Canonicalized names carried by the records of a dump (records with a
missing NAME element contribute nothing). -/
def dumpNames (dump : List NationRecord) : List String :=
  dump.filterMap (fun r => r.name.map canonical_nation_name)

/-- Counter value of the last record of the dump whose canonicalized name is
`k`, if any. -/
def lastVal : List NationRecord → String → Option Int
  | [], _ => none
  | r :: rs, k =>
    match lastVal rs k with
    | some v => some v
    | none =>
      r.name.bind (fun raw =>
        if canonical_nation_name raw = k then some r.issues_answered else none)

/-- Two characters differ only in (basic latin) case: they are equal, or one
is the upper-case form of the other. -/
def caseVariantChar (c d : Char) : Bool :=
  c == d || c == d.toUpper || d == c.toUpper

/-- Pointwise lifting of `caseVariantChar` to character lists of equal
length. -/
def caseVariantChars : List Char → List Char → Bool
  | [], [] => true
  | c :: cs, d :: ds => caseVariantChar c d && caseVariantChars cs ds
  | _, _ => false

/-- Two raw name strings differ only in case. -/
def differOnlyInCase (x y : String) : Bool :=
  caseVariantChars x.data y.data

/-! Basic lemmas about the dict model. -/

theorem containsKey_iff {v : Type} {d : List (String × v)} {k : String} :
    containsKey d k = true ↔ k ∈ keys d := by
  simp only [containsKey, keys, List.any_eq_true, List.mem_map, beq_iff_eq]

theorem lookup_isSome_iff {v : Type} {d : List (String × v)} {k : String} :
    (d.lookup k).isSome = true ↔ k ∈ keys d := by
  simp only [List.lookup_isSome_iff, keys, List.mem_map, beq_iff_eq]
  constructor
  · rintro ⟨q, hq, rfl⟩
    exact ⟨q, hq, rfl⟩
  · rintro ⟨q, hq, rfl⟩
    exact ⟨q, hq, rfl⟩

theorem lookup_eq_none_iff {v : Type} {d : List (String × v)} {k : String} :
    d.lookup k = none ↔ k ∉ keys d := by
  rw [← lookup_isSome_iff]
  cases d.lookup k <;> simp

theorem lookup_mem_keys {v : Type} {d : List (String × v)} {k : String}
    (h : k ∈ keys d) : ∃ t, d.lookup k = some t := by
  have := lookup_isSome_iff.mpr h
  cases hl : d.lookup k
  · rw [hl] at this; simp at this
  · exact ⟨_, rfl⟩

theorem lookup_addToOwner (b : List (String × Int)) (k : String) (v : Int)
    (o : String) :
    (addToOwner b k v).lookup o =
      if o = k then (b.lookup o).map (· + v) else b.lookup o := by
  induction b with
  | nil => simp [addToOwner]
  | cons q rest ih =>
    obtain ⟨a, w⟩ := q
    simp only [addToOwner, List.map_cons] at ih ⊢
    by_cases h1 : a = k
    · subst h1
      by_cases ho : o = a
      · subst ho
        simp [List.lookup_cons]
      · simp [List.lookup_cons, beq_false_of_ne ho, ih, ho]
    · by_cases ho : o = a
      · subst ho
        simp [List.lookup_cons, h1]
      · simp [List.lookup_cons, beq_false_of_ne ho, ih, h1]

theorem keys_addToOwner (b : List (String × Int)) (k : String) (v : Int) :
    keys (addToOwner b k v) = keys b := by
  simp only [keys, addToOwner, List.map_map]
  apply List.map_congr_left
  intro q _
  by_cases h : q.1 = k <;> simp [h]

theorem lookup_map_overwrite_self (d : List (String × Int)) (k : String)
    (v : Int) (h : k ∈ keys d) :
    (d.map (fun q => if q.1 = k then (q.1, v) else q)).lookup k = some v := by
  induction d with
  | nil => simp [keys] at h
  | cons q rest ih =>
    obtain ⟨a, w⟩ := q
    by_cases h1 : a = k
    · subst h1
      simp [List.lookup_cons]
    · have hm : k ∈ keys rest := by
        simp only [keys, List.map_cons, List.mem_cons] at h
        rcases h with h | h
        · exact absurd h.symm h1
        · exact h
      simp [List.lookup_cons, h1, beq_false_of_ne (fun he => h1 he.symm), ih hm]

theorem lookup_map_overwrite_ne (d : List (String × Int)) (k : String) (v : Int)
    (o : String) (h : o ≠ k) :
    (d.map (fun q => if q.1 = k then (q.1, v) else q)).lookup o = d.lookup o := by
  induction d with
  | nil => simp
  | cons q rest ih =>
    obtain ⟨a, w⟩ := q
    by_cases h1 : a = k
    · subst h1
      simp [List.lookup_cons, beq_false_of_ne h, ih]
    · by_cases ho : o = a
      · subst ho
        simp [List.lookup_cons, h1]
      · simp [List.lookup_cons, beq_false_of_ne ho, h1, ih]

theorem lookup_dictInsert (d : List (String × Int)) (k : String) (v : Int)
    (o : String) :
    (dictInsert d k v).lookup o = if o = k then some v else d.lookup o := by
  rw [dictInsert]
  split
  · rename_i hc
    by_cases ho : o = k
    · subst ho
      rw [if_pos rfl]
      exact lookup_map_overwrite_self _ _ _ (containsKey_iff.mp hc)
    · rw [if_neg ho]
      exact lookup_map_overwrite_ne _ _ _ _ ho
  · rename_i hc
    rw [List.lookup_append]
    by_cases ho : o = k
    · subst ho
      have h0 : d.lookup o = none :=
        lookup_eq_none_iff.mpr (fun hm => hc (containsKey_iff.mpr hm))
      simp [h0, List.lookup_cons]
    · simp [List.lookup_cons, beq_false_of_ne ho, ho]

theorem lookup_lbInit (board : List (String × Int)) (ow o : String) :
    (lbInit board ow).lookup o =
      if o = ow then some ((board.lookup ow).getD 0) else board.lookup o := by
  rw [lbInit]
  split
  · rename_i hc
    by_cases ho : o = ow
    · subst ho
      obtain ⟨t, ht⟩ := lookup_mem_keys (containsKey_iff.mp hc)
      simp [ht]
    · simp [ho]
  · rename_i hc
    rw [List.lookup_append]
    by_cases ho : o = ow
    · subst ho
      have h0 : board.lookup o = none :=
        lookup_eq_none_iff.mpr (fun hm => hc (containsKey_iff.mpr hm))
      simp [h0, List.lookup_cons]
    · simp [List.lookup_cons, beq_false_of_ne ho, ho]

theorem mem_keys_lbInit (board : List (String × Int)) (ow o : String) :
    o ∈ keys (lbInit board ow) ↔ o ∈ keys board ∨ o = ow := by
  rw [lbInit]
  split
  · rename_i hc
    constructor
    · exact Or.inl
    · rintro (h | rfl)
      · exact h
      · exact containsKey_iff.mp hc
  · simp [keys]

theorem nodup_keys_lbInit (board : List (String × Int)) (ow : String)
    (h : (keys board).Nodup) : (keys (lbInit board ow)).Nodup := by
  rw [lbInit]
  split
  · exact h
  · rename_i hc
    have hnm : ow ∉ keys board := fun hm => hc (containsKey_iff.mpr hm)
    have : keys (board ++ [(ow, 0)]) = keys board ++ [ow] := by
      simp [keys]
    rw [this]
    rw [(List.perm_append_singleton ow (keys board)).nodup_iff]
    exact List.nodup_cons.mpr ⟨hnm, h⟩

theorem lookup_lbStep (s e board : List (String × Int)) (p ow o : String) :
    (lbStep s e board p ow).lookup o =
      if o = ow then some ((board.lookup ow).getD 0 + contribution s e p)
      else board.lookup o := by
  rw [lbStep, contribution]
  cases he : e.lookup p with
  | none =>
    rw [lookup_lbInit]
    by_cases ho : o = ow
    · simp [ho]
    · simp [ho]
  | some ec =>
    cases hs : s.lookup p with
    | none =>
      rw [lookup_addToOwner]
      by_cases ho : o = ow
      · subst ho
        rw [if_pos rfl, if_pos rfl, lookup_lbInit, if_pos rfl]
        simp
      · rw [if_neg ho, if_neg ho, lookup_lbInit, if_neg ho]
    | some sc =>
      rw [lookup_addToOwner]
      by_cases ho : o = ow
      · subst ho
        rw [if_pos rfl, if_pos rfl, lookup_lbInit, if_pos rfl]
        simp
      · rw [if_neg ho, if_neg ho, lookup_lbInit, if_neg ho]

theorem keys_lbStep (s e board : List (String × Int)) (p ow : String) :
    keys (lbStep s e board p ow) = keys (lbInit board ow) := by
  rw [lbStep]
  cases e.lookup p with
  | none => rfl
  | some ec =>
    cases s.lookup p with
    | none => exact keys_addToOwner _ _ _
    | some sc => exact keys_addToOwner _ _ _

theorem ownerTotal_nil (s e : List (String × Int)) (o : String) :
    ownerTotal [] s e o = 0 := rfl

theorem ownerTotal_cons (p ow : String) (rest : List (String × String))
    (s e : List (String × Int)) (o : String) :
    ownerTotal ((p, ow) :: rest) s e o =
      (if ow = o then contribution s e p else 0) + ownerTotal rest s e o := by
  rw [ownerTotal, ownerTotal, List.filter_cons]
  by_cases h : ow = o
  · simp [h]
  · simp [h]

theorem ownerTotal_append_single (W : List (String × String)) (p ow : String)
    (s e : List (String × Int)) (o : String) :
    ownerTotal (W ++ [(p, ow)]) s e o =
      ownerTotal W s e o + (if ow = o then contribution s e p else 0) := by
  rw [ownerTotal, ownerTotal, List.filter_append, List.map_append, List.sum_append]
  by_cases h : ow = o
  · simp [h, List.filter_cons]
  · simp [h, List.filter_cons]

theorem ownerTotal_eq_zero (W : List (String × String))
    (s e : List (String × Int)) (o : String) (h : o ∉ W.map Prod.snd) :
    ownerTotal W s e o = 0 := by
  rw [ownerTotal]
  have hnil : W.filter (fun q => decide (q.2 = o)) = [] := by
    rw [List.filter_eq_nil_iff]
    intro q hq
    simp only [decide_eq_true_eq]
    intro he
    exact h (he ▸ List.mem_map_of_mem Prod.snd hq)
  rw [hnil]
  rfl

theorem lbLoop_lookup (s e : List (String × Int)) (W : List (String × String)) :
    ∀ (board : List (String × Int)) (o : String),
      (lbLoop s e W board).lookup o =
        if o ∈ keys board ∨ o ∈ W.map Prod.snd
        then some ((board.lookup o).getD 0 + ownerTotal W s e o)
        else none := by
  induction W with
  | nil =>
    intro board o
    simp only [lbLoop, ownerTotal_nil, List.map_nil, List.not_mem_nil, or_false]
    by_cases h : o ∈ keys board
    · obtain ⟨t, ht⟩ := lookup_mem_keys h
      simp [h, ht]
    · have h0 : board.lookup o = none := lookup_eq_none_iff.mpr h
      simp [h, h0]
  | cons pw rest ih =>
    obtain ⟨p, ow⟩ := pw
    intro board o
    simp only [lbLoop]
    rw [ih]
    by_cases ho : o = ow
    · subst ho
      have hk : o ∈ keys (lbStep s e board p o) := by
        rw [keys_lbStep]
        exact (mem_keys_lbInit board o o).mpr (Or.inr rfl)
      rw [lookup_lbStep, if_pos rfl, ownerTotal_cons]
      simp [hk, Int.add_assoc]
    · have hk : (o ∈ keys (lbStep s e board p ow)) ↔ o ∈ keys board := by
        rw [keys_lbStep, mem_keys_lbInit]
        simp [ho]
      rw [lookup_lbStep, if_neg ho, ownerTotal_cons]
      have how : ¬ow = o := fun h => ho h.symm
      rw [if_neg how, Int.zero_add]
      simp only [List.map_cons]
      by_cases hb : o ∈ keys board
      · rw [if_pos (Or.inl (hk.mpr hb)), if_pos (Or.inl hb)]
      · by_cases hr : o ∈ List.map Prod.snd rest
        · rw [if_pos (Or.inr hr), if_pos (Or.inr (List.mem_cons_of_mem _ hr))]
        · rw [if_neg, if_neg]
          · rintro (h | h)
            · exact hb h
            · rcases List.mem_cons.mp h with h | h
              · exact ho h
              · exact hr h
          · rintro (h | h)
            · exact hb (hk.mp h)
            · exact hr h

theorem nodup_keys_lbLoop (s e : List (String × Int)) (W : List (String × String)) :
    ∀ board, (keys board).Nodup → (keys (lbLoop s e W board)).Nodup := by
  induction W with
  | nil =>
    intro board h
    simpa [lbLoop] using h
  | cons pw rest ih =>
    obtain ⟨p, ow⟩ := pw
    intro board h
    simp only [lbLoop]
    apply ih
    rw [keys_lbStep]
    exact nodup_keys_lbInit _ _ h

theorem lookup_of_mem_nodup {v : Type} {l : List (String × v)} {k : String}
    {t : v} (hnd : (keys l).Nodup) (hm : (k, t) ∈ l) : l.lookup k = some t := by
  induction l with
  | nil => simp at hm
  | cons q rest ih =>
    obtain ⟨a, w⟩ := q
    simp only [keys, List.map_cons, List.nodup_cons] at hnd
    rcases List.mem_cons.mp hm with heq | hm'
    · obtain ⟨rfl, rfl⟩ := Prod.mk.injEq .. ▸ heq
      simp [List.lookup_cons]
    · have hka : k ≠ a := by
        rintro rfl
        exact hnd.1 (List.mem_map_of_mem Prod.fst hm')
      simp [List.lookup_cons, beq_false_of_ne hka, ih hnd.2 hm']

theorem lookup_perm {v : Type} {l l2 : List (String × v)}
    (hnd : (keys l).Nodup) (hp : l.Perm l2) (k : String) :
    l2.lookup k = l.lookup k := by
  cases hl : l.lookup k with
  | none =>
    have h1 : k ∉ keys l := lookup_eq_none_iff.mp hl
    have h2 : k ∉ keys l2 := fun hm => h1 ((hp.map Prod.fst).mem_iff.mpr hm)
    exact lookup_eq_none_iff.mpr h2
  | some t =>
    have hm : (k, t) ∈ l := by
      obtain ⟨l1, l2', hdec, _⟩ := List.lookup_eq_some_iff.mp hl
      rw [hdec]
      simp
    have hnd2 : (keys l2).Nodup := (hp.map Prod.fst).nodup_iff.mp hnd
    exact lookup_of_mem_nodup hnd2 (hp.mem_iff.mp hm)

theorem get_leaderboard_lookup (W : List (String × String))
    (s e : List (String × Int)) (o : String) :
    (get_leaderboard W s e).lookup o =
      if o ∈ W.map Prod.snd then some (ownerTotal W s e o) else none := by
  rw [get_leaderboard]
  have hnd : (keys (lbLoop s e W [])).Nodup :=
    nodup_keys_lbLoop s e W [] (by simp [keys])
  rw [lookup_perm hnd (List.mergeSort_perm _ _).symm o]
  rw [lbLoop_lookup]
  by_cases h : o ∈ W.map Prod.snd
  · simp [keys, h]
  · simp [keys, h]

/-! Lemmas about the dump scanner. -/

theorem dumpNames_cons_none (r : NationRecord) (rs : List NationRecord)
    (h : r.name = none) : dumpNames (r :: rs) = dumpNames rs := by
  simp [dumpNames, List.filterMap_cons, h]

theorem dumpNames_cons_some (r : NationRecord) (rs : List NationRecord)
    (raw : String) (h : r.name = some raw) :
    dumpNames (r :: rs) = canonical_nation_name raw :: dumpNames rs := by
  simp [dumpNames, List.filterMap_cons, h]

theorem lastVal_isSome (dump : List NationRecord) (k : String) :
    (lastVal dump k).isSome = true ↔ k ∈ dumpNames dump := by
  induction dump with
  | nil => simp [lastVal, dumpNames]
  | cons r rs ih =>
    simp only [lastVal]
    cases hl : lastVal rs k with
    | some v =>
      have hk : k ∈ dumpNames rs := ih.mp (by simp [hl])
      cases hr : r.name with
      | none =>
        rw [dumpNames_cons_none r rs hr]
        simpa using hk
      | some raw =>
        rw [dumpNames_cons_some r rs raw hr]
        simp [hk]
    | none =>
      have hk : k ∉ dumpNames rs := fun h => by
        rw [← ih, hl] at h
        simp at h
      cases hr : r.name with
      | none =>
        rw [dumpNames_cons_none r rs hr]
        simp [hr, hk]
      | some raw =>
        rw [dumpNames_cons_some r rs raw hr]
        by_cases hc : canonical_nation_name raw = k
        · simp [hr, hc]
        · have hc2 : ¬k = canonical_nation_name raw := fun h => hc h.symm
          simp [hr, hc, hc2, hk]

theorem lastVal_unique (dump : List NationRecord) (r : NationRecord)
    (raw : String) (hnd : (dumpNames dump).Nodup) (hmem : r ∈ dump)
    (hname : r.name = some raw) :
    lastVal dump (canonical_nation_name raw) = some r.issues_answered := by
  induction dump with
  | nil => simp at hmem
  | cons r1 rs ih =>
    rcases List.mem_cons.mp hmem with rfl | hm
    · have hh : dumpNames (r :: rs) = canonical_nation_name raw :: dumpNames rs := by
        simp [dumpNames, List.filterMap_cons, hname]
      rw [hh] at hnd
      have hnot : canonical_nation_name raw ∉ dumpNames rs := (List.nodup_cons.mp hnd).1
      have hnone : lastVal rs (canonical_nation_name raw) = none := by
        cases hl : lastVal rs (canonical_nation_name raw) with
        | none => rfl
        | some v => exact absurd ((lastVal_isSome rs _).mp (by simp [hl])) hnot
      simp only [lastVal, hnone, hname]
      simp
    · have hnd2 : (dumpNames rs).Nodup := by
        cases hr1 : r1.name with
        | none => simpa [dumpNames, List.filterMap_cons, hr1] using hnd
        | some raw1 =>
          have hh : dumpNames (r1 :: rs) = canonical_nation_name raw1 :: dumpNames rs := by
            simp [dumpNames, List.filterMap_cons, hr1]
          rw [hh] at hnd
          exact (List.nodup_cons.mp hnd).2
      have hv := ih hnd2 hm
      simp only [lastVal, hv]

theorem scanLoop_spec (puppets : List (String × String)) :
    ∀ (dump : List NationRecord), (∀ r ∈ dump, r.name ≠ none) →
    ∀ acc, ∃ res, scanLoop puppets dump acc = .ok res ∧
      ∀ k, res.lookup k =
        match (if containsKey puppets k = true then lastVal dump k else none) with
        | some v => some v
        | none => acc.lookup k := by
  intro dump
  induction dump with
  | nil =>
    intro _ acc
    refine ⟨acc, rfl, fun k => ?_⟩
    simp [lastVal]
  | cons r rs ih =>
    intro hwf acc
    have hwf2 : ∀ r2 ∈ rs, r2.name ≠ none :=
      fun r2 h2 => hwf r2 (List.mem_cons_of_mem _ h2)
    cases hr : r.name with
    | none => exact absurd hr (hwf r (List.mem_cons_self _ _))
    | some raw =>
      by_cases hc : containsKey puppets (canonical_nation_name raw) = true
      · obtain ⟨res, heq, hres⟩ :=
          ih hwf2 (dictInsert acc (canonical_nation_name raw) r.issues_answered)
        refine ⟨res, ?_, fun k => ?_⟩
        · simp only [scanLoop, hr, hc, if_true]
          exact heq
        · rw [hres k, lookup_dictInsert]
          by_cases hk : containsKey puppets k = true
          · rw [if_pos hk, if_pos hk]
            simp only [lastVal, hr]
            cases hl : lastVal rs k with
            | some v => simp
            | none =>
              by_cases hkn : k = canonical_nation_name raw
              · simp [hkn]
              · have hnk : ¬canonical_nation_name raw = k := fun h => hkn h.symm
                simp [hkn, hnk]
          · rw [if_neg hk, if_neg hk]
            have hkn : k ≠ canonical_nation_name raw := fun h => hk (h ▸ hc)
            simp [hkn]
      · obtain ⟨res, heq, hres⟩ := ih hwf2 acc
        refine ⟨res, ?_, fun k => ?_⟩
        · simp only [scanLoop, hr]
          rw [if_neg hc]
          exact heq
        · rw [hres k]
          by_cases hk : containsKey puppets k = true
          · rw [if_pos hk, if_pos hk]
            simp only [lastVal, hr]
            have hkn : canonical_nation_name raw ≠ k := fun h => hc (h ▸ hk)
            cases hl : lastVal rs k with
            | some v => simp
            | none => simp [hkn]
          · rw [if_neg hk, if_neg hk]

theorem scanLoop_error (puppets : List (String × String)) :
    ∀ (dump : List NationRecord), (∃ r ∈ dump, r.name = none) →
    ∀ acc, scanLoop puppets dump acc = .error .attributeError := by
  intro dump
  induction dump with
  | nil =>
    rintro ⟨r, hm, _⟩
    simp at hm
  | cons r rs ih =>
    rintro ⟨r1, hm, hname⟩ acc
    rcases List.mem_cons.mp hm with rfl | hm2
    · simp [scanLoop, hname]
    · cases hr : r.name with
      | none => simp [scanLoop, hr]
      | some raw =>
        simp only [scanLoop, hr]
        split
        · exact ih ⟨r1, hm2, hname⟩ _
        · exact ih ⟨r1, hm2, hname⟩ _

/-! Lemmas about ASCII case normalization. -/

theorem toNat_ofNat_valid (n : Nat) (h : n < 55296) : (Char.ofNat n).toNat = n := by
  have hv : n.isValidChar := Or.inl h
  unfold Char.ofNat
  rw [dif_pos hv]
  rfl

theorem toLower_toLower (c : Char) : c.toLower.toLower = c.toLower := by
  simp only [Char.toLower]
  by_cases h : c.toNat ≥ 65 ∧ c.toNat ≤ 90
  · rw [if_pos h]
    have h1 : (Char.ofNat (c.toNat + 32)).toNat = c.toNat + 32 :=
      toNat_ofNat_valid _ (by omega)
    rw [h1, if_neg (by omega)]
  · rw [if_neg h, if_neg h]

theorem toLower_toUpper (c : Char) : c.toUpper.toLower = c.toLower := by
  simp only [Char.toUpper, Char.toLower]
  by_cases h : c.toNat ≥ 97 ∧ c.toNat ≤ 122
  · rw [if_pos h]
    have h1 : (Char.ofNat (c.toNat - 32)).toNat = c.toNat - 32 :=
      toNat_ofNat_valid _ (by omega)
    rw [h1, if_pos (by omega), if_neg (by omega)]
    have h2 : c.toNat - 32 + 32 = c.toNat := by omega
    rw [h2, Char.ofNat_toNat]
  · rw [if_neg h]

theorem caseVariantChar_toLower {c d : Char} (h : caseVariantChar c d = true) :
    c.toLower = d.toLower := by
  rw [caseVariantChar] at h
  simp only [Bool.or_eq_true, beq_iff_eq] at h
  rcases h with (rfl | rfl) | rfl
  · rfl
  · exact toLower_toUpper d
  · exact (toLower_toUpper c).symm

theorem caseVariantChars_map {l1 l2 : List Char}
    (h : caseVariantChars l1 l2 = true) :
    l1.map Char.toLower = l2.map Char.toLower := by
  induction l1 generalizing l2 with
  | nil =>
    cases l2 with
    | nil => rfl
    | cons d ds => simp [caseVariantChars] at h
  | cons c cs ih =>
    cases l2 with
    | nil => simp [caseVariantChars] at h
    | cons d ds =>
      rw [caseVariantChars] at h
      simp only [Bool.and_eq_true] at h
      simp [List.map_cons, caseVariantChar_toLower h.1, ih h.2]

theorem canonical_idem (x : String) :
    canonical_nation_name (canonical_nation_name x) = canonical_nation_name x := by
  show String.mk ((x.data.map Char.toLower).map Char.toLower)
      = String.mk (x.data.map Char.toLower)
  rw [List.map_map]
  congr 1
  apply List.map_congr_left
  intro a _
  exact toLower_toLower a

theorem differOnlyInCase_canonical {x y : String}
    (h : differOnlyInCase x y = true) :
    canonical_nation_name x = canonical_nation_name y := by
  rw [differOnlyInCase] at h
  show String.mk (x.data.map Char.toLower) = String.mk (y.data.map Char.toLower)
  exact congrArg String.mk (caseVariantChars_map h)

/-! Derived facts feeding the claim theorems. -/

theorem glb_append_single (W : List (String × String)) (s e : List (String × Int))
    (p o : String) :
    (get_leaderboard (W ++ [(p, o)]) s e).lookup o =
      some (((get_leaderboard W s e).lookup o).getD 0 + contribution s e p) := by
  rw [get_leaderboard_lookup, get_leaderboard_lookup]
  have hmem : o ∈ (W ++ [(p, o)]).map Prod.snd := by simp
  rw [if_pos hmem, ownerTotal_append_single, if_pos rfl]
  by_cases h : o ∈ W.map Prod.snd
  · rw [if_pos h]
    rfl
  · rw [if_neg h, ownerTotal_eq_zero W s e o h]
    rfl

theorem lbLoop_congr (W : List (String × String)) (B B2 A A2 : List (String × Int))
    (h : ∀ p ∈ W.map Prod.fst, B.lookup p = B2.lookup p ∧ A.lookup p = A2.lookup p) :
    ∀ board, lbLoop B A W board = lbLoop B2 A2 W board := by
  induction W with
  | nil => intro board; rfl
  | cons pw rest ih =>
    obtain ⟨p, ow⟩ := pw
    intro board
    have hp := h p (by simp)
    have hrest : ∀ q ∈ rest.map Prod.fst,
        B.lookup q = B2.lookup q ∧ A.lookup q = A2.lookup q :=
      fun q hq => h q (by simp [hq])
    simp only [lbLoop]
    rw [show lbStep B A board p ow = lbStep B2 A2 board p ow from by
      rw [lbStep, lbStep, hp.1, hp.2]]
    exact ih hrest _

theorem lastVal_append (d1 d2 : List NationRecord) (r : NationRecord)
    (raw : String) (hname : r.name = some raw)
    (hlast : canonical_nation_name raw ∉ dumpNames d2) :
    lastVal (d1 ++ r :: d2) (canonical_nation_name raw) = some r.issues_answered := by
  induction d1 with
  | nil =>
    have hnone : lastVal d2 (canonical_nation_name raw) = none := by
      cases hv : lastVal d2 (canonical_nation_name raw) with
      | none => rfl
      | some v => exact absurd ((lastVal_isSome d2 _).mp (by simp [hv])) hlast
    simp only [List.nil_append, lastVal, hnone, hname]
    simp
  | cons r1 d1t ih =>
    have ih2 : lastVal (d1t.append (r :: d2)) (canonical_nation_name raw)
        = some r.issues_answered := ih
    simp only [List.cons_append, lastVal, ih, ih2]

/-! Claim theorems. -/

/-- C1: for every watch-list and every pair of snapshot count dicts, every
owner name appearing as a value of the watch-list appears exactly once as a
key of the leaderboard returned by `get_leaderboard`, even when that owner's
total delta is zero, and no other name appears as a key. -/
theorem C1_owner_appears_exactly_once (W : List (String × String))
    (s e : List (String × Int)) (o : String) :
    (keys (get_leaderboard W s e)).count o =
      if o ∈ W.map Prod.snd then 1 else 0 := by
  have hb : (keys (lbLoop s e W [])).Nodup :=
    nodup_keys_lbLoop s e W [] (by simp [keys])
  have hp : (get_leaderboard W s e).Perm (lbLoop s e W []) := by
    rw [get_leaderboard]
    exact List.mergeSort_perm _ _
  have hk : (keys (get_leaderboard W s e)).Perm (keys (lbLoop s e W [])) :=
    hp.map Prod.fst
  rw [hk.count_eq]
  have hmem : o ∈ keys (lbLoop s e W []) ↔ o ∈ W.map Prod.snd := by
    rw [← lookup_isSome_iff, lbLoop_lookup]
    by_cases h : o ∈ W.map Prod.snd
    · simp [keys, h]
    · simp [keys, h]
  by_cases h : o ∈ W.map Prod.snd
  · rw [if_pos h]
    exact List.count_eq_one_of_mem hb (hmem.mpr h)
  · rw [if_neg h]
    exact List.count_eq_zero_of_not_mem (fun hm => h (hmem.mp hm))

/-- C2: for every dump whose records all carry an identity field, with
pairwise distinct canonical names, the scan returns a dict whose key set is
exactly the watch-list key set intersected with the canonical names present
in the dump, and each key maps to exactly the counter value stated in its
dump record. -/
theorem C2_scan_round_trip (dump : List NationRecord)
    (puppets : List (String × String))
    (hwf : ∀ r ∈ dump, r.name ≠ none)
    (hnd : (dumpNames dump).Nodup) :
    ∃ res, get_puppet_issue_counts dump puppets = .ok res ∧
      (∀ k, (res.lookup k).isSome = true ↔
        (containsKey puppets k = true ∧ k ∈ dumpNames dump)) ∧
      (∀ r ∈ dump, ∀ raw, r.name = some raw →
        containsKey puppets (canonical_nation_name raw) = true →
        res.lookup (canonical_nation_name raw) = some r.issues_answered) := by
  obtain ⟨res, heq, hres⟩ := scanLoop_spec puppets dump hwf []
  refine ⟨res, heq, fun k => ?_, fun r hr raw hraw hc => ?_⟩
  · rw [hres k]
    by_cases hk : containsKey puppets k = true
    · rw [if_pos hk]
      cases hl : lastVal dump k with
      | some v =>
        have hm : k ∈ dumpNames dump := (lastVal_isSome dump k).mp (by simp [hl])
        simp [hk, hm]
      | none =>
        have hm : k ∉ dumpNames dump := fun hmm => by
          rw [← lastVal_isSome, hl] at hmm
          simp at hmm
        simp [hk, hm]
    · rw [if_neg hk]
      simp [hk]
  · rw [hres _, if_pos hc, lastVal_unique dump r raw hnd hr hraw]

/-- C2 witness: the round-trip property evaluated on a one-record dump. -/
theorem C2_scan_round_trip_witness :
    ∃ res, get_puppet_issue_counts [⟨some "Puppet 1", 5⟩]
        [("puppet 1", "owner 1")] = .ok res ∧
      (∀ k, (res.lookup k).isSome = true ↔
        (containsKey [("puppet 1", "owner 1")] k = true ∧
          k ∈ dumpNames [⟨some "Puppet 1", 5⟩])) ∧
      (∀ r ∈ ([⟨some "Puppet 1", 5⟩] : List NationRecord), ∀ raw,
        r.name = some raw →
        containsKey [("puppet 1", "owner 1")] (canonical_nation_name raw) = true →
        res.lookup (canonical_nation_name raw) = some r.issues_answered) :=
  C2_scan_round_trip [⟨some "Puppet 1", 5⟩] [("puppet 1", "owner 1")]
    (by decide) (by decide)

/-- C3: a puppet of the watch-list that is present in the after-counts with
value `v` and absent from the before-counts adds exactly `v` to its owner's
total (baseline 0), even when `v = 0`. -/
theorem C3_absent_before_contributes_full_after (W : List (String × String))
    (s e : List (String × Int)) (p o : String) (v : Int)
    (hs : s.lookup p = none) (he : e.lookup p = some v) :
    (get_leaderboard (W ++ [(p, o)]) s e).lookup o =
      some (((get_leaderboard W s e).lookup o).getD 0 + v) := by
  have h := glb_append_single W s e p o
  simp only [contribution, he, hs] at h
  exact h

/-- C3 witness: a new puppet present only in the after-counts contributes its
full count. -/
theorem C3_absent_before_witness :
    (get_leaderboard [("puppet 1", "owner 1")] [] [("puppet 1", 5)]).lookup "owner 1" =
      some (((get_leaderboard [] [] [("puppet 1", 5)]).lookup "owner 1").getD 0 + 5) :=
  C3_absent_before_contributes_full_after [] [] [("puppet 1", 5)]
    "puppet 1" "owner 1" 5 rfl (by decide)

/-- C4: a puppet of the watch-list that is absent from the after-counts
contributes exactly 0 to its owner's total, regardless of whether or with
what value it appears in the before-counts. -/
theorem C4_absent_after_contributes_zero (W : List (String × String))
    (s e : List (String × Int)) (p o : String)
    (he : e.lookup p = none) :
    (get_leaderboard (W ++ [(p, o)]) s e).lookup o =
      some (((get_leaderboard W s e).lookup o).getD 0) := by
  have h := glb_append_single W s e p o
  simp only [contribution, he, Int.add_zero] at h
  exact h

/-- C4 witness: a puppet absent from the after-counts contributes nothing,
even though it has a before-count. -/
theorem C4_absent_after_witness :
    (get_leaderboard [("puppet 1", "owner 1")] [("puppet 1", 9)] []).lookup "owner 1" =
      some (((get_leaderboard [] [("puppet 1", 9)] []).lookup "owner 1").getD 0) :=
  C4_absent_after_contributes_zero [] [("puppet 1", 9)] [] "puppet 1" "owner 1" rfl

/-- C5: `get_leaderboard` is total; a puppet present in both count dicts
contributes exactly the difference of its after and before counts — possibly
negative — and every owner of the watch-list gets a defined integer total. -/
theorem C5_present_both_contributes_difference (W : List (String × String))
    (s e : List (String × Int)) (p o : String) (sv ev : Int)
    (hs : s.lookup p = some sv) (he : e.lookup p = some ev) :
    ((get_leaderboard (W ++ [(p, o)]) s e).lookup o =
      some (((get_leaderboard W s e).lookup o).getD 0 + (ev - sv))) ∧
    ∀ o2 ∈ (W ++ [(p, o)]).map Prod.snd,
      ∃ t : Int, (get_leaderboard (W ++ [(p, o)]) s e).lookup o2 = some t := by
  constructor
  · have h := glb_append_single W s e p o
    simp only [contribution, he, hs] at h
    exact h
  · intro o2 hm
    rw [get_leaderboard_lookup, if_pos hm]
    exact ⟨_, rfl⟩

/-- C5 witness: a puppet present in both snapshots contributes the difference
of its counts, here a negative one (counter reset), without any failure. -/
theorem C5_present_both_witness :
    ((get_leaderboard [("puppet 1", "owner 1")] [("puppet 1", 5)]
        [("puppet 1", 3)]).lookup "owner 1" =
      some (((get_leaderboard [] [("puppet 1", 5)] [("puppet 1", 3)]).lookup
        "owner 1").getD 0 + (3 - 5))) ∧
    ∀ o2 ∈ ([] ++ [("puppet 1", "owner 1")] : List (String × String)).map Prod.snd,
      ∃ t : Int, (get_leaderboard [("puppet 1", "owner 1")] [("puppet 1", 5)]
        [("puppet 1", 3)]).lookup o2 = some t :=
  C5_present_both_contributes_difference [] [("puppet 1", 5)] [("puppet 1", 3)]
    "puppet 1" "owner 1" 5 3 (by decide) (by decide)

/-- C6: the leaderboard is an ordered sequence of (owner, total) pairs sorted
by total in descending order, and it is a permutation of the accumulated
owner dict, so tied owners are neither dropped nor merged. -/
theorem C6_sorted_descending_ties_kept (W : List (String × String))
    (s e : List (String × Int)) :
    List.Pairwise (fun a b : String × Int => b.2 ≤ a.2) (get_leaderboard W s e) ∧
    (get_leaderboard W s e).Perm (lbLoop s e W []) := by
  constructor
  · rw [get_leaderboard]
    refine List.Pairwise.imp ?_ (List.sorted_mergeSort ?_ ?_ (lbLoop s e W []))
    · intro a b hab
      exact of_decide_eq_true hab
    · intro a b c h1 h2
      simp only [decide_eq_true_eq] at h1 h2 ⊢
      omega
    · intro a b
      simp only [Bool.or_eq_true, decide_eq_true_eq]
      exact Int.le_total b.2 a.2
  · rw [get_leaderboard]
    exact List.mergeSort_perm _ _

/-- C7 counterexample: on a concrete dump whose first record is missing its
NAME element, the scan does not skip the record and continue — it aborts with
the AttributeError raised by `elem.find('NAME').text`, so the other watched
record never reaches the result. -/
theorem C7_counterexample :
    get_puppet_issue_counts [⟨none, 5⟩, ⟨some "Puppet 2", 7⟩]
        [("puppet 2", "owner 1")] = .error .attributeError ∧
    get_puppet_issue_counts [⟨none, 5⟩, ⟨some "Puppet 2", 7⟩]
        [("puppet 2", "owner 1")] ≠ .ok [("puppet 2", 7)] := by
  have h1 : get_puppet_issue_counts [⟨none, 5⟩, ⟨some "Puppet 2", 7⟩]
      [("puppet 2", "owner 1")] = .error .attributeError := rfl
  refine ⟨h1, fun h => ?_⟩
  rw [h1] at h
  exact Except.noConfusion h

/-- C7 (amended): whenever some record of the dump is missing its identity
field, `get_puppet_issue_counts` raises AttributeError and the whole scan
aborts: no result mapping is produced and the remaining records are not
scanned, instead of the record being reported and skipped. -/
theorem C7_missing_name_aborts_scan (dump : List NationRecord)
    (puppets : List (String × String)) (h : ∃ r ∈ dump, r.name = none) :
    get_puppet_issue_counts dump puppets = .error .attributeError :=
  scanLoop_error puppets dump h []

/-- C7 witness: the amended claim evaluated on a concrete dump. -/
theorem C7_missing_name_aborts_scan_witness :
    (∃ r ∈ ([⟨none, 5⟩, ⟨some "Puppet 3", 7⟩] : List NationRecord),
      r.name = none) ∧
    get_puppet_issue_counts [⟨none, 5⟩, ⟨some "Puppet 3", 7⟩]
        [("puppet 3", "owner 1")] = .error .attributeError := by
  have hx : ∃ r ∈ ([⟨none, 5⟩, ⟨some "Puppet 3", 7⟩] : List NationRecord),
      r.name = none := ⟨⟨none, 5⟩, by simp, rfl⟩
  exact ⟨hx, C7_missing_name_aborts_scan _ _ hx⟩

/-- C8: when the same canonical name appears in more than one record of a
well-formed dump, the scan returns for that name the counter value of its
last occurrence in the dump's record order (plain mapping overwrite). -/
theorem C8_last_occurrence_wins (d1 d2 : List NationRecord) (r : NationRecord)
    (puppets : List (String × String)) (raw : String)
    (hwf : ∀ r2 ∈ d1 ++ r :: d2, r2.name ≠ none)
    (hname : r.name = some raw)
    (hdup : canonical_nation_name raw ∈ dumpNames d1)
    (hlast : canonical_nation_name raw ∉ dumpNames d2)
    (hc : containsKey puppets (canonical_nation_name raw) = true) :
    ∃ res, get_puppet_issue_counts (d1 ++ r :: d2) puppets = .ok res ∧
      res.lookup (canonical_nation_name raw) = some r.issues_answered := by
  obtain ⟨res, heq, hres⟩ := scanLoop_spec puppets (d1 ++ r :: d2) hwf []
  refine ⟨res, heq, ?_⟩
  rw [hres _, if_pos hc, lastVal_append d1 d2 r raw hname hlast]

/-- C8 witness: two records carrying the same canonical name (differing only
in case); the scan keeps the counter of the later one. -/
theorem C8_last_occurrence_wins_witness :
    ∃ res, get_puppet_issue_counts
        ([⟨some "Puppet 1", 3⟩] ++ (⟨some "puppet 1", 9⟩ : NationRecord) :: [])
        [("puppet 1", "owner 1")] = .ok res ∧
      res.lookup (canonical_nation_name "puppet 1") = some (9 : Int) :=
  C8_last_occurrence_wins [⟨some "Puppet 1", 3⟩] [] ⟨some "puppet 1", 9⟩
    [("puppet 1", "owner 1")] "puppet 1" (by decide) rfl (by decide) (by decide)
    (by decide)

/-- C9: canonicalization is idempotent, two raw names differing only in case
map to the same canonical name, and canonicalizing both "Puppet 1" and
"puppet 1" yields "puppet 1". -/
theorem C9_canonicalization_idempotent_case_insensitive :
    (∀ x : String,
      canonical_nation_name (canonical_nation_name x) = canonical_nation_name x) ∧
    (∀ x y : String, differOnlyInCase x y = true →
      canonical_nation_name x = canonical_nation_name y) ∧
    canonical_nation_name "Puppet 1" = "puppet 1" ∧
    canonical_nation_name "puppet 1" = "puppet 1" := by
  refine ⟨canonical_idem, fun x y h => differOnlyInCase_canonical h, ?_, ?_⟩
  · decide
  · decide

/-- C9 witness: the universal parts of C9 evaluated on concrete strings. -/
theorem C9_canonicalization_witness :
    canonical_nation_name (canonical_nation_name "AbC") = canonical_nation_name "AbC" ∧
    canonical_nation_name "PUPPET 1" = canonical_nation_name "puppet 1" :=
  ⟨C9_canonicalization_idempotent_case_insensitive.1 "AbC",
   C9_canonicalization_idempotent_case_insensitive.2.1 "PUPPET 1" "puppet 1"
     (by decide)⟩

/-- C10: the leaderboard depends only on the count values of the watch-list's
puppets: two pairs of before and after count dicts that agree (same presence,
same value) on every watch-list key produce identical leaderboards. -/
theorem C10_only_watched_keys_matter (W : List (String × String))
    (B B2 A A2 : List (String × Int))
    (h : ∀ p ∈ W.map Prod.fst,
      B.lookup p = B2.lookup p ∧ A.lookup p = A2.lookup p) :
    get_leaderboard W B A = get_leaderboard W B2 A2 := by
  rw [get_leaderboard, get_leaderboard, lbLoop_congr W B B2 A A2 h []]

/-- C10 witness: adding entries for unwatched names to either snapshot leaves
the leaderboard unchanged. -/
theorem C10_only_watched_keys_matter_witness :
    get_leaderboard [("puppet 1", "owner 1")] [("puppet 1", 1)] [("puppet 1", 4)] =
      get_leaderboard [("puppet 1", "owner 1")]
        [("puppet 1", 1), ("intruder", 99)] [("other", 7), ("puppet 1", 4)] :=
  C10_only_watched_keys_matter [("puppet 1", "owner 1")] [("puppet 1", 1)]
    [("puppet 1", 1), ("intruder", 99)] [("puppet 1", 4)]
    [("other", 7), ("puppet 1", 4)] (by decide)

end IssueLeaderboard
